import Mathlib

/-!
Shallow embedding of the Playfair cipher implementation
(`playfair_cipher.py`): grid construction (`create_grid`), message
normalization (`prepare_message`), digraph encryption
(`find_coordinates`, `encrypt_pair`) and the orchestrator
(`playfair_encrypt`).  Strings are modelled as Lean `String`
(a list of characters); Python's Unicode-aware `str.isalpha` /
`str.upper` are modelled on the Basic Latin and Latin-1 letters: the
ASCII letters plus the accented Latin-1 letters (codes 192-222 and
224-254), whose uppercase mapping is the uniform 32-code-point shift.
Letters outside Latin-1 and the irregularly-cased `ß` (which uppercases
to the two-letter `SS`) and `ÿ` are outside the model.  Errors
(`ValueError`) are modelled with `Except String`.
-/

/-- Model of Python `str.isalpha` on Basic Latin and Latin-1: the ASCII
letters `A`..`Z` (codes 65-90) and `a`..`z` (codes 97-122), and the
accented Latin-1 letters `À`..`Ö` (192-214), `Ø`..`Þ` (216-222),
`à`..`ö` (224-246) and `ø`..`þ` (248-254). -/
def pyIsAlpha (c : Char) : Bool :=
  (65 ≤ c.toNat && c.toNat ≤ 90) || (97 ≤ c.toNat && c.toNat ≤ 122) ||
  (192 ≤ c.toNat && c.toNat ≤ 214) || (216 ≤ c.toNat && c.toNat ≤ 222) ||
  (224 ≤ c.toNat && c.toNat ≤ 246) || (248 ≤ c.toNat && c.toNat ≤ 254)

/-- Model of Python `str.upper` on Basic Latin and Latin-1: a lowercase
letter (ASCII or accented Latin-1) is shifted down by 32 code points —
e.g. `é` (233) becomes `É` (201) — anything else is unchanged. -/
def pyUpper (c : Char) : Char :=
  if (97 ≤ c.toNat && c.toNat ≤ 122) || (224 ≤ c.toNat && c.toNat ≤ 246) ||
     (248 ≤ c.toNat && c.toNat ≤ 254) then
    Char.ofNat (c.toNat - 32)
  else c

/-- Cleaning step shared by `create_grid` and `prepare_message`:
uppercase, drop non-alphabetic characters, replace `J` by `I`
(`keyword.upper()`, `filter(str.isalpha, ...)`, `.replace('J','I')`). -/
def pfClean (l : List Char) : List Char :=
  ((l.map pyUpper).filter pyIsAlpha).map (fun c => if c = 'J' then 'I' else c)

/-- The 25-letter alphabet of the source:
`[chr(i) for i in range(ord('A'), ord('Z') + 1) if chr(i) != 'J']`. -/
def pfAlphabet : List Char :=
  ((List.range 26).map (fun i => Char.ofNat (65 + i))).filter (fun c => !(c == 'J'))

/-- First-occurrence deduplication loop of `create_grid` (Step 2):
walks the letters, keeping a letter only when it is not in `seen`. -/
def uniqueLetters : List Char → List Char → List Char
  | [], _ => []
  | c :: rest, seen =>
    if c ∈ seen then uniqueLetters rest seen
    else c :: uniqueLetters rest (c :: seen)

/-- The deduplicated cleaned keyword (`unique_keyword` in the source). -/
def unique_keyword (l : List Char) : List Char := uniqueLetters l []

/-- The row-major letter sequence of the grid (`grid_letters` in the
source): unique keyword letters first, then the alphabet letters not
occurring in the keyword. -/
def grid_letters (keyword : List Char) : List Char :=
  unique_keyword (pfClean keyword) ++
    pfAlphabet.filter (fun c => !((pfClean keyword).contains c))

/-- Message of the `ValueError` raised by `create_grid`. -/
def invalidKeyMsg : String := "Keyword must contain at least one alphabetic character."

/-- Model of `create_grid`: guardrail on a keyword without alphabetic
characters, then the 5x5 grid sliced row-major from `grid_letters`. -/
def create_grid (keyword : String) : Except String (List (List Char)) :=
  if keyword.data.isEmpty || !(keyword.data.any pyIsAlpha) then
    Except.error invalidKeyMsg
  else
    let gl := grid_letters keyword.data
    Except.ok [(gl.drop 0).take 5, (gl.drop 5).take 5, (gl.drop 10).take 5,
               (gl.drop 15).take 5, (gl.drop 20).take 5]

/-- The filler letter of `prepare_message`: `'Z' if a == 'X' else 'X'`. -/
def pfFiller (a : Char) : Char := if a = 'X' then 'Z' else 'X'

/-- The repeat-separating scan of `prepare_message` (Step 2): on a
repeated letter the filler is inserted and the cursor advances by one,
otherwise both letters are emitted and the cursor advances by two. -/
def prepareChars : List Char → List Char
  | [] => []
  | [a] => [a]
  | a :: b :: rest =>
    if a = b then a :: pfFiller a :: prepareChars (b :: rest)
    else a :: b :: prepareChars rest

/-- Padding step of `prepare_message` (Step 3): an odd-length buffer is
padded with the filler for its last letter. -/
def padIfOdd (l : List Char) : List Char :=
  if l.length % 2 = 1 then l ++ [pfFiller (l.getLastD 'X')] else l

/-- Splitting into digraphs (`prepared_chars[i:i + 2]` joined, Step 4). -/
def chunkPairs : List Char → List String
  | a :: b :: rest => String.mk [a, b] :: chunkPairs rest
  | [a] => [String.mk [a]]
  | [] => []

/-- Model of `prepare_message`: clean, separate repeats, pad, split into
digraphs, and keep only the length-2 chunks. -/
def prepare_message (message_text : String) : List String :=
  let cleaned := pfClean message_text.data
  if cleaned.isEmpty then []
  else (chunkPairs (padIfOdd (prepareChars cleaned))).filter (fun dg => dg.length == 2)

/-- Lookup of `grid[r][c]`, `none` when an index is out of range. -/
def gridGet (grid : List (List Char)) (r c : Nat) : Option Char :=
  (grid[r]?).bind (fun row => row[c]?)

/-- Row-major scan order of `find_coordinates`: `r` in `range(5)`,
`c` in `range(5)`. -/
def pfCoords : List (Nat × Nat) :=
  (List.range 5).flatMap (fun r => (List.range 5).map (fun c => (r, c)))

/-- Message of the `ValueError` raised by `find_coordinates` (the Python
message also interpolates the missing character). -/
def charNotFoundMsg : String := "Character not found in the Playfair grid."

/-- Message standing for Python's `IndexError` on a list access. -/
def listIndexMsg : String := "list index out of range"

/-- Message standing for Python's `IndexError` on `digraph[0]` or
`digraph[1]`. -/
def strIndexMsg : String := "string index out of range"

/-- Model of `find_coordinates`: first grid position holding `c` in
row-major order, or the `ValueError`. -/
def find_coordinates (grid : List (List Char)) (c : Char) : Except String (Nat × Nat) :=
  match pfCoords.find? (fun p => gridGet grid p.1 p.2 == some c) with
  | some p => Except.ok p
  | none => Except.error charNotFoundMsg

/-- Model of `encrypt_pair`: look up both letters, apply the same-row /
same-column / rectangle rule to the coordinates, and read the letters at
the new positions. -/
def encrypt_pair (grid : List (List Char)) (digraph : String) : Except String String :=
  match digraph.data with
  | char1 :: char2 :: _ =>
    (match find_coordinates grid char1 with
     | Except.error e => Except.error e
     | Except.ok (r1, c1) =>
       match find_coordinates grid char2 with
       | Except.error e => Except.error e
       | Except.ok (r2, c2) =>
         let q : (Nat × Nat) × Nat × Nat :=
           if r1 = r2 then ((r1, (c1 + 1) % 5), (r2, (c2 + 1) % 5))
           else if c1 = c2 then (((r1 + 1) % 5, c1), ((r2 + 1) % 5, c2))
           else ((r1, c2), (r2, c1))
         match gridGet grid q.1.1 q.1.2, gridGet grid q.2.1 q.2.2 with
         | some e1, some e2 => Except.ok (String.mk [e1, e2])
         | _, _ => Except.error listIndexMsg)
  | _ => Except.error strIndexMsg

/-- Model of `playfair_encrypt`: build the grid, prepare the message,
return `""` when there are no digraphs, otherwise encrypt each digraph
and join the results. -/
def playfair_encrypt (keyword message_text : String) : Except String String :=
  match create_grid keyword with
  | Except.error e => Except.error e
  | Except.ok grid =>
    let digraphs := prepare_message message_text
    if digraphs.isEmpty then Except.ok ""
    else
      match digraphs.mapM (fun dg => encrypt_pair grid dg) with
      | Except.error e => Except.error e
      | Except.ok cs => Except.ok (String.join cs)

/-- Letter sitting at `(r, c)` of a grid (total version of `gridGet`,
meaningful on in-range coordinates). -/
def gridChar (grid : List (List Char)) (r c : Nat) : Char :=
  (gridGet grid r c).getD 'A'

/-- Well-formedness of a Playfair grid: 5 rows of 5 letters, all 25
letters pairwise distinct. -/
def pfWellFormed (grid : List (List Char)) : Prop :=
  grid.length = 5 ∧ (∀ row ∈ grid, row.length = 5) ∧ grid.flatten.Nodup

/-- Holds of an `encrypt_pair` result that is a successful digraph of
two distinct letters. -/
def pfIsDistinctOkPair (e : Except String String) : Bool :=
  match e with
  | Except.ok s =>
    match s.data with
    | [u, v] => u != v
    | _ => false
  | Except.error _ => false

/-- Digraph-aligned distinctness of a character buffer: the letters at
positions `(0,1)`, `(2,3)`, ... differ within each pair. -/
def PairsOK : List Char → Prop
  | [] => True
  | [_] => True
  | a :: b :: rest => a ≠ b ∧ PairsOK rest

/-! ### Character-level lemmas -/

/-- Characters are determined by their code points. -/
lemma char_toNat_inj {x y : Char} (h : x.toNat = y.toNat) : x = y := by
  have hx := Char.ofNat_toNat x
  rw [h, Char.ofNat_toNat y] at hx
  exact hx.symm

/-- Code point of `Char.ofNat` on a scalar value below the surrogate
range. -/
lemma char_toNat_ofNat (n : Nat) (h : n < 55296) : (Char.ofNat n).toNat = n := by
  rw [Char.ofNat, dif_pos (Or.inl h)]
  rfl

/-- Unfolding of `pyIsAlpha` into code-point ranges. -/
lemma pyIsAlpha_iff (c : Char) :
    pyIsAlpha c = true ↔
      (65 ≤ c.toNat ∧ c.toNat ≤ 90) ∨ (97 ≤ c.toNat ∧ c.toNat ≤ 122) ∨
      (192 ≤ c.toNat ∧ c.toNat ≤ 214) ∨ (216 ≤ c.toNat ∧ c.toNat ≤ 222) ∨
      (224 ≤ c.toNat ∧ c.toNat ≤ 246) ∨ (248 ≤ c.toNat ∧ c.toNat ≤ 254) := by
  simp only [pyIsAlpha, Bool.or_eq_true, Bool.and_eq_true, decide_eq_true_eq]
  tauto

/-- Code point of `pyUpper` on a modelled lowercase letter. -/
lemma toNat_pyUpper_lower (c : Char)
    (h : (97 ≤ c.toNat ∧ c.toNat ≤ 122) ∨ (224 ≤ c.toNat ∧ c.toNat ≤ 246) ∨
      (248 ≤ c.toNat ∧ c.toNat ≤ 254)) :
    (pyUpper c).toNat = c.toNat - 32 := by
  unfold pyUpper
  rw [if_pos (by
    simp only [Bool.or_eq_true, Bool.and_eq_true, decide_eq_true_eq]
    omega)]
  exact char_toNat_ofNat (c.toNat - 32) (by omega)

/-- The `pyUpper` map fixes everything outside the modelled lowercase
ranges. -/
lemma pyUpper_id (c : Char)
    (h : ¬((97 ≤ c.toNat ∧ c.toNat ≤ 122) ∨ (224 ≤ c.toNat ∧ c.toNat ≤ 246) ∨
      (248 ≤ c.toNat ∧ c.toNat ≤ 254))) : pyUpper c = c := by
  unfold pyUpper
  rw [if_neg (by
    simp only [Bool.or_eq_true, Bool.and_eq_true, decide_eq_true_eq]
    omega)]

/-- Membership in `pfAlphabet` from code-point bounds (uppercase, not `J`). -/
lemma mem_pfAlphabet_of (x : Char) (h1 : 65 ≤ x.toNat) (h2 : x.toNat ≤ 90)
    (h3 : x.toNat ≠ 74) : x ∈ pfAlphabet := by
  have hmap : x.toNat ∈ pfAlphabet.map Char.toNat := by
    have hlist : pfAlphabet.map Char.toNat =
        [65, 66, 67, 68, 69, 70, 71, 72, 73, 75, 76, 77, 78, 79, 80, 81, 82,
         83, 84, 85, 86, 87, 88, 89, 90] := by decide
    rw [hlist]
    set n := x.toNat with hn
    interval_cases n <;> first | (exact absurd rfl h3) | decide
  obtain ⟨y, hy, hxy⟩ := List.mem_map.mp hmap
  exact char_toNat_inj hxy ▸ hy

/-- Every character produced by cleaning an ASCII string lies in the
reduced 25-letter alphabet. -/
lemma pfClean_mem (l : List Char) (hascii : ∀ c ∈ l, c.toNat < 128) :
    ∀ x ∈ pfClean l, x ∈ pfAlphabet := by
  intro x hx
  unfold pfClean at hx
  obtain ⟨u, hu, hjm⟩ := List.mem_map.mp hx
  have halpha : pyIsAlpha u = true := List.of_mem_filter hu
  obtain ⟨c0, hc0, hup⟩ := List.mem_map.mp (List.mem_of_mem_filter hu)
  have h0 : c0.toNat < 128 := hascii c0 hc0
  have hupper : 65 ≤ u.toNat ∧ u.toNat ≤ 90 := by
    by_cases hc : 97 ≤ c0.toNat ∧ c0.toNat ≤ 122
    · have h1 := toNat_pyUpper_lower c0 (Or.inl hc)
      rw [hup] at h1
      omega
    · have h1 : pyUpper c0 = c0 := pyUpper_id c0 (by omega)
      rw [h1] at hup
      rw [← hup] at halpha ⊢
      rcases (pyIsAlpha_iff c0).mp halpha with h2 | h2 | h2 | h2 | h2 | h2 <;> omega
  by_cases hj : u = 'J'
  · rw [← hjm, if_pos hj]
    decide
  · rw [← hjm, if_neg hj]
    refine mem_pfAlphabet_of u hupper.1 hupper.2 ?_
    intro h74
    exact hj (char_toNat_inj (y := 'J') h74)

/-! ### Normalization lemmas -/

/-- The filler letter never equals the letter it fills for. -/
lemma pfFiller_ne (a : Char) : pfFiller a ≠ a := by
  unfold pfFiller
  by_cases h : a = 'X'
  · rw [if_pos h, h]
    decide
  · rw [if_neg h]
    exact fun hh => h hh.symm

/-- The filler letter is always `X` or `Z`. -/
lemma pfFiller_mem (a : Char) : pfFiller a = 'X' ∨ pfFiller a = 'Z' := by
  unfold pfFiller
  by_cases h : a = 'X'
  · rw [if_pos h]
    right
    rfl
  · rw [if_neg h]
    left
    rfl

/-- The repeat-separating scan only emits digraph-aligned distinct pairs. -/
lemma pairsOK_prepareChars : ∀ l : List Char, PairsOK (prepareChars l)
  | [] => trivial
  | [_] => trivial
  | a :: b :: rest => by
    by_cases h : a = b
    · simp only [prepareChars, if_pos h]
      exact ⟨Ne.symm (pfFiller_ne a), pairsOK_prepareChars (b :: rest)⟩
    · simp only [prepareChars, if_neg h]
      exact ⟨h, pairsOK_prepareChars rest⟩

/-- Appending the filler for the last letter of an odd-length
digraph-aligned buffer keeps it digraph-aligned. -/
lemma pairsOK_append_filler :
    ∀ (l : List Char) (d : Char), PairsOK l → l.length % 2 = 1 →
      PairsOK (l ++ [pfFiller (l.getLastD d)])
  | [], _, _, hodd => by simp at hodd
  | [a], d, _, _ => by
    have h : ([a].getLastD d) = a := by
      rw [List.getLastD_cons, List.getLastD_nil]
    rw [h]
    exact ⟨Ne.symm (pfFiller_ne a), trivial⟩
  | a :: b :: rest, d, hp, hodd => by
    have hrest : rest.length % 2 = 1 := by
      simp only [List.length_cons] at hodd
      omega
    have hlast : (a :: b :: rest).getLastD d = rest.getLastD b := by
      rw [List.getLastD_cons, List.getLastD_cons]
    rw [hlast]
    exact ⟨hp.1, pairsOK_append_filler rest b hp.2 hrest⟩

/-- The padded buffer is digraph-aligned when the unpadded one is. -/
lemma pairsOK_padIfOdd (l : List Char) (h : PairsOK l) : PairsOK (padIfOdd l) := by
  unfold padIfOdd
  by_cases h1 : l.length % 2 = 1
  · rw [if_pos h1]
    exact pairsOK_append_filler l 'X' h h1
  · rw [if_neg h1]
    exact h

/-- The padded buffer always has even length. -/
lemma padIfOdd_length_even (l : List Char) : (padIfOdd l).length % 2 = 0 := by
  unfold padIfOdd
  by_cases h1 : l.length % 2 = 1
  · rw [if_pos h1]
    simp only [List.length_append, List.length_cons, List.length_nil]
    omega
  · rw [if_neg h1]
    omega

/-- Every character of a chunk comes from the chunked buffer. -/
lemma chunkPairs_mem_data :
    ∀ (l : List Char) (dg : String), dg ∈ chunkPairs l → ∀ c ∈ dg.data, c ∈ l
  | [], dg, hdg, _, _ => by simp [chunkPairs] at hdg
  | [a], dg, hdg, c, hc => by
    simp only [chunkPairs, List.mem_singleton] at hdg
    subst hdg
    have hc2 : c ∈ [a] := hc
    simpa using hc2
  | a :: b :: rest, dg, hdg, c, hc => by
    rcases List.mem_cons.mp hdg with h | h
    · subst h
      have hc2 : c ∈ [a, b] := hc
      rcases List.mem_cons.mp hc2 with h1 | h1
      · simp [h1]
      · have : c = b := by simpa using h1
        simp [this]
    · have := chunkPairs_mem_data rest dg h c hc
      exact List.mem_cons_of_mem _ (List.mem_cons_of_mem _ this)

/-- Chunks of a digraph-aligned buffer never pair a letter with itself. -/
lemma chunkPairs_distinct :
    ∀ (l : List Char), PairsOK l → ∀ dg ∈ chunkPairs l,
      ∀ a b, dg.data = [a, b] → a ≠ b
  | [], _, dg, hdg, _, _, _ => by simp [chunkPairs] at hdg
  | [x], _, dg, hdg, a, b, hdata => by
    simp only [chunkPairs, List.mem_singleton] at hdg
    subst hdg
    have : ([x] : List Char) = [a, b] := hdata
    simp at this
  | x :: y :: rest, hp, dg, hdg, a, b, hdata => by
    rcases List.mem_cons.mp hdg with h | h
    · subst h
      have h2 : ([x, y] : List Char) = [a, b] := hdata
      injection h2 with hxa h2t
      injection h2t with hyb _
      rw [← hxa, ← hyb]
      exact hp.1
    · exact chunkPairs_distinct rest hp.2 dg h a b hdata

/-- Every character emitted by the scan is an input character or a
filler (`X` or `Z`). -/
lemma mem_prepareChars :
    ∀ (l : List Char) (c : Char), c ∈ prepareChars l → c ∈ l ∨ c = 'X' ∨ c = 'Z'
  | [], c, h => by simp [prepareChars] at h
  | [a], c, h => by
    have h2 : c ∈ [a] := h
    left
    exact h2
  | a :: b :: rest, c, h => by
    by_cases hab : a = b
    · simp only [prepareChars, if_pos hab] at h
      rcases List.mem_cons.mp h with h1 | h2
      · left
        simp [h1]
      · rcases List.mem_cons.mp h2 with h3 | h4
        · right
          rcases pfFiller_mem a with h5 | h5
          · left
            rw [h3, h5]
          · right
            rw [h3, h5]
        · rcases mem_prepareChars (b :: rest) c h4 with h5 | h5
          · left
            exact List.mem_cons_of_mem _ h5
          · right
            exact h5
    · simp only [prepareChars, if_neg hab] at h
      rcases List.mem_cons.mp h with h1 | h2
      · left
        simp [h1]
      · rcases List.mem_cons.mp h2 with h3 | h4
        · left
          simp [h3]
        · rcases mem_prepareChars rest c h4 with h5 | h5
          · left
            exact List.mem_cons_of_mem _ (List.mem_cons_of_mem _ h5)
          · right
            exact h5

/-- Every character of the padded buffer is a buffer character or a
filler. -/
lemma mem_padIfOdd (l : List Char) (c : Char) (h : c ∈ padIfOdd l) :
    c ∈ l ∨ c = 'X' ∨ c = 'Z' := by
  unfold padIfOdd at h
  by_cases h1 : l.length % 2 = 1
  · rw [if_pos h1] at h
    rcases List.mem_append.mp h with h2 | h2
    · left
      exact h2
    · right
      have h3 : c = pfFiller (l.getLastD 'X') := by simpa using h2
      rcases pfFiller_mem (l.getLastD 'X') with h5 | h5
      · left
        rw [h3, h5]
      · right
        rw [h3, h5]
  · rw [if_neg h1] at h
    left
    exact h

/-- Uppercasing preserves being a modelled letter. -/
lemma pyIsAlpha_pyUpper (c : Char) : pyIsAlpha (pyUpper c) = pyIsAlpha c := by
  by_cases hc : (97 ≤ c.toNat ∧ c.toNat ≤ 122) ∨ (224 ≤ c.toNat ∧ c.toNat ≤ 246) ∨
      (248 ≤ c.toNat ∧ c.toNat ≤ 254)
  · have h := toNat_pyUpper_lower c hc
    have h1 : pyIsAlpha (pyUpper c) = true := by
      rw [pyIsAlpha_iff, h]
      omega
    have h2 : pyIsAlpha c = true := by
      rw [pyIsAlpha_iff]
      omega
    rw [h1, h2]
  · rw [pyUpper_id c hc]

/-- Membership in `prepare_message` output comes from the chunking of the
padded scan buffer, restricted to length-2 chunks. -/
lemma mem_prepare_message {s dg : String} (h : dg ∈ prepare_message s) :
    dg ∈ chunkPairs (padIfOdd (prepareChars (pfClean s.data))) ∧ dg.length = 2 := by
  simp only [prepare_message] at h
  by_cases h1 : (pfClean s.data).isEmpty
  · rw [if_pos h1] at h
    simp at h
  · rw [if_neg h1] at h
    refine ⟨List.mem_of_mem_filter h, ?_⟩
    have h2 := List.of_mem_filter h
    simpa using h2

/-- A string of length two is a two-character list. -/
lemma data_of_length_two (dg : String) (h : dg.length = 2) :
    ∃ a b, dg.data = [a, b] := by
  obtain ⟨l⟩ := dg
  have hl : l.length = 2 := h
  cases l with
  | nil => simp at hl
  | cons a t =>
    cases t with
    | nil => simp at hl
    | cons b t2 =>
      cases t2 with
      | nil => exact ⟨a, b, rfl⟩
      | cons c t3 => simp at hl

/-- Length of a fold of string appends. -/
lemma string_foldl_append_length :
    ∀ (L : List String) (acc : String),
      (L.foldl (fun r s => r ++ s) acc).length = acc.length + (L.map String.length).sum
  | [], acc => by simp
  | s :: L, acc => by
    simp only [List.foldl_cons, List.map_cons, List.sum_cons]
    rw [string_foldl_append_length L (acc ++ s)]
    simp only [String.length_append]
    omega

/-- Length of a joined string list is the sum of the lengths. -/
lemma string_join_length (L : List String) :
    (String.join L).length = (L.map String.length).sum := by
  have h := string_foldl_append_length L ""
  simpa [String.join] using h

/-- A sum of length-2 strings has even length. -/
lemma sum_lengths_even (L : List String) (h : ∀ x ∈ L, x.length = 2) :
    (L.map String.length).sum % 2 = 0 := by
  induction L with
  | nil => simp
  | cons s t ih =>
    simp only [List.map_cons, List.sum_cons]
    have hs := h s (by simp)
    have ht := ih (fun x hx => h x (List.mem_cons_of_mem _ hx))
    omega

/-! ### Claims about normalization (C2, C3, C5, C8) -/

/-- C2: `prepare_message`'s scan (`prepareChars`) proceeds left to right;
on a repeated letter it appends the letter and its filler (`Z` for `X`,
otherwise `X`) and advances the cursor by exactly one, so the original
successor is re-examined; on distinct letters it appends both and
advances by two; consequently a run of `n + 1` identical letters is
processed letter by letter, yielding the letter interleaved with
fillers. -/
theorem prepare_scan_steps (a b : Char) (rest : List Char) (n : Nat) :
    (a = b → prepareChars (a :: b :: rest) = a :: pfFiller a :: prepareChars (b :: rest)) ∧
    (a ≠ b → prepareChars (a :: b :: rest) = a :: b :: prepareChars rest) ∧
    prepareChars (List.replicate (n + 1) a) =
      (List.replicate n [a, pfFiller a]).flatten ++ [a] := by
  refine ⟨fun h => by simp [prepareChars, h], fun h => by simp [prepareChars, h], ?_⟩
  induction n with
  | zero => simp [prepareChars]
  | succ k ih =>
    have h2 : List.replicate (k + 1 + 1) a = a :: a :: List.replicate k a := by
      simp [List.replicate_succ]
    rw [h2]
    have h3 : prepareChars (a :: a :: List.replicate k a)
        = a :: pfFiller a :: prepareChars (a :: List.replicate k a) := by
      simp [prepareChars]
    have h4 : a :: List.replicate k a = List.replicate (k + 1) a := by
      simp [List.replicate_succ]
    rw [h3, h4, ih]
    simp [List.replicate_succ]

/-- Witness for C2: the repeat step on `LLO` and the letter-by-letter
treatment of the run `AAA`. -/
theorem prepare_scan_steps_witness :
    prepareChars ['L', 'L', 'O'] = ['L', 'X', 'L', 'O'] ∧
    prepareChars ['A', 'A', 'A'] = ['A', 'X', 'A', 'X', 'A'] := by
  constructor
  · rw [(prepare_scan_steps 'L' 'L' ['O'] 0).1 rfl]
    decide
  · have h := (prepare_scan_steps 'A' 'A' [] 2).2.2
    exact h

/-- C3 counterexample: `prepare_message "HELLO"` is not the digraph list
`[HE, LX, OX]` stated by the specification. -/
theorem prepare_hello_ne_spec : prepare_message "HELLO" ≠ ["HE", "LX", "OX"] := by
  decide

/-- C3 amended: `prepare_message "HELLO"` returns `[HE, LX, LO]` (the
filler is inserted between the two `L`s and the cursor advances by one,
so the second `L` starts the next digraph). -/
theorem prepare_hello_eval : prepare_message "HELLO" = ["HE", "LX", "LO"] := by
  decide

/-- C5 counterexample: for the non-ASCII input `é` (a letter for
Python's `str.isalpha`), `prepare_message` returns the digraph `ÉX`,
whose letter `É` is outside the reduced 25-letter alphabet. -/
theorem prepare_message_e_acute :
    prepare_message "é" = ["ÉX"] ∧ 'É' ∈ ("ÉX" : String).data ∧ 'É' ∉ pfAlphabet := by
  refine ⟨by decide, by decide, by decide⟩

/-- C5 amended: for every input string of ASCII characters, every letter
of every digraph returned by `prepare_message` belongs to the reduced
25-letter alphabet (`A`..`Z` without `J`). -/
theorem prepare_message_alphabet (s : String)
    (hascii : ∀ c ∈ s.data, c.toNat < 128) :
    ∀ dg ∈ prepare_message s, ∀ c ∈ dg.data, c ∈ pfAlphabet := by
  intro dg hdg c hc
  obtain ⟨hchunk, _⟩ := mem_prepare_message hdg
  have hbuf := chunkPairs_mem_data _ dg hchunk c hc
  rcases mem_padIfOdd _ c hbuf with h1 | h1
  · rcases mem_prepareChars _ c h1 with h2 | h2
    · exact pfClean_mem _ hascii c h2
    · rcases h2 with h3 | h3 <;> (rw [h3]; decide)
  · rcases h1 with h3 | h3 <;> (rw [h3]; decide)

/-- Witness for C5: the letter `H` of the digraph `HE` produced for
`HELLO` is in the reduced alphabet. -/
theorem prepare_message_alphabet_witness : 'H' ∈ pfAlphabet :=
  prepare_message_alphabet "HELLO" (by decide) "HE" (by decide) 'H' (by decide)

/-- C8: `prepare_message` is total: it returns `[]` on input without
alphabetic content; the concatenation of its digraphs has even length;
every digraph has exactly two letters; and no digraph consists of two
identical letters. -/
theorem prepare_message_contract (s : String) :
    ((∀ c ∈ s.data, pyIsAlpha c = false) → prepare_message s = []) ∧
    (String.join (prepare_message s)).length % 2 = 0 ∧
    (∀ dg ∈ prepare_message s, dg.length = 2) ∧
    (∀ dg ∈ prepare_message s, ∀ a b, dg.data = [a, b] → a ≠ b) := by
  have hlen2 : ∀ dg ∈ prepare_message s, dg.length = 2 := by
    intro dg hdg
    exact (mem_prepare_message hdg).2
  refine ⟨?_, ?_, hlen2, ?_⟩
  · intro h
    have hclean : pfClean s.data = [] := by
      unfold pfClean
      have hf : (s.data.map pyUpper).filter pyIsAlpha = [] := by
        rw [List.filter_eq_nil_iff]
        intro a ha
        obtain ⟨c0, hc0, hup⟩ := List.mem_map.mp ha
        rw [← hup, pyIsAlpha_pyUpper]
        simp [h c0 hc0]
      rw [hf]
      rfl
    simp [prepare_message, hclean]
  · rw [string_join_length]
    exact sum_lengths_even _ hlen2
  · intro dg hdg a b hdata
    have hchunk := (mem_prepare_message hdg).1
    exact chunkPairs_distinct _
      (pairsOK_padIfOdd _ (pairsOK_prepareChars _)) dg hchunk a b hdata

/-- Witness for C8: the degenerate input `123` yields no digraphs, and
for `HELLO` the digraph `HE` has length two and distinct letters. -/
theorem prepare_message_contract_witness :
    prepare_message "123" = [] ∧ ("HE" : String).length = 2 ∧ 'H' ≠ 'E' :=
  ⟨(prepare_message_contract "123").1 (by decide),
   (prepare_message_contract "HELLO").2.2.1 "HE" (by decide),
   (prepare_message_contract "HELLO").2.2.2 "HE" (by decide) 'H' 'E' (by decide)⟩

/-! ### Grid construction lemmas (C4) -/

/-- Membership in the deduplication loop output: the kept letters are
exactly the input letters not already seen. -/
lemma uniqueLetters_mem :
    ∀ (l seen : List Char) (x : Char),
      x ∈ uniqueLetters l seen ↔ x ∈ l ∧ x ∉ seen
  | [], seen, x => by simp [uniqueLetters]
  | c :: rest, seen, x => by
    by_cases h : c ∈ seen
    · simp only [uniqueLetters, if_pos h]
      rw [uniqueLetters_mem rest seen x]
      constructor
      · rintro ⟨h1, h2⟩
        exact ⟨List.mem_cons_of_mem _ h1, h2⟩
      · rintro ⟨h1, h2⟩
        rcases List.mem_cons.mp h1 with h3 | h3
        · exact absurd (h3 ▸ h) h2
        · exact ⟨h3, h2⟩
    · simp only [uniqueLetters, if_neg h]
      constructor
      · intro h1
        rcases List.mem_cons.mp h1 with h3 | h3
        · subst h3
          exact ⟨List.mem_cons_self _ _, h⟩
        · rw [uniqueLetters_mem rest (c :: seen) x] at h3
          obtain ⟨h4, h5⟩ := h3
          exact ⟨List.mem_cons_of_mem _ h4,
                 fun hx => h5 (List.mem_cons_of_mem _ hx)⟩
      · rintro ⟨h1, h2⟩
        by_cases hxc : x = c
        · subst hxc
          exact List.mem_cons_self _ _
        · rcases List.mem_cons.mp h1 with h3 | h3
          · exact absurd h3 hxc
          · apply List.mem_cons_of_mem
            rw [uniqueLetters_mem rest (c :: seen) x]
            refine ⟨h3, fun hx => ?_⟩
            rcases List.mem_cons.mp hx with h4 | h4
            · exact hxc h4
            · exact h2 h4

/-- The deduplication loop emits no letter twice. -/
lemma uniqueLetters_nodup : ∀ (l seen : List Char), (uniqueLetters l seen).Nodup
  | [], _ => by simp [uniqueLetters]
  | c :: rest, seen => by
    by_cases h : c ∈ seen
    · simp only [uniqueLetters, if_pos h]
      exact uniqueLetters_nodup rest seen
    · simp only [uniqueLetters, if_neg h]
      refine List.nodup_cons.mpr ⟨?_, uniqueLetters_nodup rest (c :: seen)⟩
      intro hc
      rw [uniqueLetters_mem rest (c :: seen) c] at hc
      exact hc.2 (List.mem_cons_self _ _)

/-- Unique letters followed by the not-yet-used letters of a duplicate-free
list permute that list. -/
lemma keyword_filter_perm (u A : List Char) (hu : u.Nodup) (hA : A.Nodup)
    (hsub : ∀ x ∈ u, x ∈ A) :
    (u ++ A.filter (fun c => !(u.contains c))).Perm A := by
  rw [List.perm_iff_count]
  intro x
  rw [List.count_append]
  by_cases hx : x ∈ u
  · have h1 : u.count x = 1 := List.count_eq_one_of_mem hu hx
    have h2 : (A.filter (fun c => !(u.contains c))).count x = 0 := by
      rw [List.count_eq_zero]
      intro hmem
      have h3 := List.of_mem_filter hmem
      simp [List.contains] at h3
      exact h3 hx
    have h3 : A.count x = 1 := List.count_eq_one_of_mem hA (hsub x hx)
    omega
  · have h1 : u.count x = 0 := List.count_eq_zero_of_not_mem hx
    have h2 : (A.filter (fun c => !(u.contains c))).count x = A.count x :=
      List.count_filter (by simp [List.contains, hx])
    omega

/-- The row-major letter sequence of the grid permutes the 25-letter
alphabet, for every ASCII keyword. -/
lemma grid_letters_perm (keyword : List Char)
    (hascii : ∀ c ∈ keyword, c.toNat < 128) :
    (grid_letters keyword).Perm pfAlphabet := by
  unfold grid_letters
  have hmemiff : ∀ x, x ∈ unique_keyword (pfClean keyword) ↔ x ∈ pfClean keyword := by
    intro x
    unfold unique_keyword
    rw [uniqueLetters_mem]
    simp
  have hfeq : pfAlphabet.filter (fun c => !((pfClean keyword).contains c))
      = pfAlphabet.filter (fun c => !((unique_keyword (pfClean keyword)).contains c)) := by
    apply List.filter_congr
    intro x _
    by_cases hx : x ∈ pfClean keyword
    · have h2 : x ∈ unique_keyword (pfClean keyword) := (hmemiff x).mpr hx
      simp [List.contains, hx, h2]
    · have h2 : x ∉ unique_keyword (pfClean keyword) := fun h => hx ((hmemiff x).mp h)
      simp [List.contains, hx, h2]
  rw [hfeq]
  apply keyword_filter_perm
  · exact uniqueLetters_nodup _ _
  · decide
  · intro x hx
    exact pfClean_mem keyword hascii x ((hmemiff x).mp hx)

/-- The row-major letter sequence of an ASCII keyword has 25 letters. -/
lemma grid_letters_length (keyword : List Char)
    (hascii : ∀ c ∈ keyword, c.toNat < 128) :
    (grid_letters keyword).length = 25 := by
  rw [(grid_letters_perm keyword hascii).length_eq]
  decide

/-- Flattening the five row slices of a 25-letter sequence recovers it. -/
lemma grid_slices_flatten (gl : List Char) (h : gl.length = 25) :
    [(gl.drop 0).take 5, (gl.drop 5).take 5, (gl.drop 10).take 5,
     (gl.drop 15).take 5, (gl.drop 20).take 5].flatten = gl := by
  have e20 : (gl.drop 20).take 5 = gl.drop 20 := by
    apply List.take_of_length_le
    simp [h]
  have s20 : gl.drop 20 = (gl.drop 15).drop 5 := by
    rw [List.drop_drop]
  have s15 : gl.drop 15 = (gl.drop 10).drop 5 := by
    rw [List.drop_drop]
  have s10 : gl.drop 10 = (gl.drop 5).drop 5 := by
    rw [List.drop_drop]
  have s5 : gl.drop 5 = (gl.drop 0).drop 5 := by
    rw [List.drop_drop]
  simp only [List.flatten, List.append_nil]
  rw [e20, s20, List.take_append_drop, s15, List.take_append_drop,
      s10, List.take_append_drop, s5, List.take_append_drop]
  simp

/-- C4 counterexample: the non-ASCII keyword `é` is accepted by
`create_grid` (its single character is a letter for Python's
`str.isalpha`), yet the returned grid keeps `É`, so its 26 row-major
letters are sliced to 25 and the reduced-alphabet letter `Z` is dropped:
the grid does not contain each of the 25 reduced-alphabet letters. -/
theorem create_grid_e_acute_incomplete :
    create_grid "é" = Except.ok
      [['É', 'A', 'B', 'C', 'D'], ['E', 'F', 'G', 'H', 'I'],
       ['K', 'L', 'M', 'N', 'O'], ['P', 'Q', 'R', 'S', 'T'],
       ['U', 'V', 'W', 'X', 'Y']] ∧
    'Z' ∈ pfAlphabet ∧
    ([['É', 'A', 'B', 'C', 'D'], ['E', 'F', 'G', 'H', 'I'],
      ['K', 'L', 'M', 'N', 'O'], ['P', 'Q', 'R', 'S', 'T'],
      ['U', 'V', 'W', 'X', 'Y']] : List (List Char)).flatten.count 'Z' = 0 := by
  refine ⟨rfl, by decide, by decide⟩

/-- C4 amended: for every ASCII keyword accepted by `create_grid`, the
returned grid is a 5 by 5 table whose row-major flattening is exactly
`grid_letters` (the deduplicated keyword letters in first-occurrence
order followed by the remaining alphabet letters in natural order) and
which contains each of the 25 reduced-alphabet letters exactly once and
nothing else. -/
theorem create_grid_complete (keyword : String) (g : List (List Char))
    (hascii : ∀ c ∈ keyword.data, c.toNat < 128)
    (h : create_grid keyword = Except.ok g) :
    g.length = 5 ∧ (∀ row ∈ g, row.length = 5) ∧
    g.flatten = grid_letters keyword.data ∧
    (∀ c ∈ pfAlphabet, g.flatten.count c = 1) ∧
    (∀ c ∈ g.flatten, c ∈ pfAlphabet) := by
  have hlen := grid_letters_length keyword.data hascii
  unfold create_grid at h
  by_cases hg : keyword.data.isEmpty || !(keyword.data.any pyIsAlpha)
  · rw [if_pos hg] at h
    exact absurd h (by simp)
  · rw [if_neg hg] at h
    have hgeq : g = [((grid_letters keyword.data).drop 0).take 5,
        ((grid_letters keyword.data).drop 5).take 5,
        ((grid_letters keyword.data).drop 10).take 5,
        ((grid_letters keyword.data).drop 15).take 5,
        ((grid_letters keyword.data).drop 20).take 5] := by
      simpa using h.symm
    subst hgeq
    have hflat := grid_slices_flatten (grid_letters keyword.data) hlen
    refine ⟨rfl, ?_, hflat, ?_, ?_⟩
    · intro row hrow
      simp only [List.mem_cons, List.not_mem_nil, or_false] at hrow
      rcases hrow with h1 | h1 | h1 | h1 | h1 <;>
        (rw [h1]; simp [List.length_take, List.length_drop, hlen])
    · intro c hc
      rw [hflat, List.Perm.count_eq (grid_letters_perm keyword.data hascii)]
      exact List.count_eq_one_of_mem (by decide) hc
    · intro c hc
      rw [hflat] at hc
      exact (grid_letters_perm keyword.data hascii).mem_iff.mp hc

/-- Witness for C4 at the keyword `MONARCHY`: the concrete grid's
flattening equals `grid_letters` and the letter `A` occurs exactly
once. -/
theorem create_grid_complete_witness :
    ([['M', 'O', 'N', 'A', 'R'], ['C', 'H', 'Y', 'B', 'D'],
      ['E', 'F', 'G', 'I', 'K'], ['L', 'P', 'Q', 'S', 'T'],
      ['U', 'V', 'W', 'X', 'Z']] : List (List Char)).flatten
        = grid_letters ("MONARCHY" : String).data ∧
    ([['M', 'O', 'N', 'A', 'R'], ['C', 'H', 'Y', 'B', 'D'],
      ['E', 'F', 'G', 'I', 'K'], ['L', 'P', 'Q', 'S', 'T'],
      ['U', 'V', 'W', 'X', 'Z']] : List (List Char)).flatten.count 'A' = 1 := by
  have h := create_grid_complete "MONARCHY"
    [['M', 'O', 'N', 'A', 'R'], ['C', 'H', 'Y', 'B', 'D'],
     ['E', 'F', 'G', 'I', 'K'], ['L', 'P', 'Q', 'S', 'T'],
     ['U', 'V', 'W', 'X', 'Z']] (by decide) rfl
  exact ⟨h.2.2.1, h.2.2.2.1 'A' (by decide)⟩

/-! ### Grid lookup and encryption lemmas (C6, C7, C10) -/

/-- A `find?` over a list whose predicate holds at exactly one member
returns that member. -/
lemma list_find_unique {α : Type} (p : α → Bool) :
    ∀ (l : List α) (x : α), x ∈ l → p x = true →
      (∀ y ∈ l, p y = true → y = x) → l.find? p = some x
  | [], x, hx, _, _ => absurd hx (List.not_mem_nil x)
  | a :: l, x, hx, hpx, hu => by
    by_cases hpa : p a = true
    · have ha : a = x := hu a (List.mem_cons_self _ _) hpa
      rw [List.find?_cons_of_pos _ hpa, ha]
    · have hxl : x ∈ l := by
        rcases List.mem_cons.mp hx with h | h
        · subst h
          exact absurd hpx hpa
        · exact h
      rw [List.find?_cons_of_neg _ (by simpa using hpa)]
      exact list_find_unique p l x hxl hpx
        (fun y hy hpy => hu y (List.mem_cons_of_mem _ hy) hpy)

/-- Indexing the flattening of a table of width-`w` rows. -/
lemma flatten_getElem? (w : Nat) :
    ∀ (L : List (List Char)) (r c : Nat), (∀ row ∈ L, row.length = w) → c < w →
      L.flatten[w * r + c]? = (L[r]?).bind (fun row => row[c]?)
  | [], r, c, _, _ => by simp
  | row :: L, r, c, hrow, hc => by
    have hrl : row.length = w := hrow row (List.mem_cons_self _ _)
    cases r with
    | zero =>
      rw [List.flatten_cons]
      have hlt : c < row.length := by omega
      rw [show w * 0 + c = c by omega]
      rw [List.getElem?_append_left hlt]
      simp
    | succ r2 =>
      rw [List.flatten_cons]
      have hge : row.length ≤ w * (r2 + 1) + c := by
        rw [hrl, Nat.mul_succ]
        omega
      rw [List.getElem?_append_right hge]
      have hidx : w * (r2 + 1) + c - row.length = w * r2 + c := by
        rw [hrl, Nat.mul_succ]
        omega
      rw [hidx,
          flatten_getElem? w L r2 c (fun rr hrr => hrow rr (List.mem_cons_of_mem _ hrr)) hc]
      simp

/-- A successful grid lookup has in-range coordinates. -/
lemma gridGet_bounds {grid : List (List Char)} (hwf : pfWellFormed grid)
    {r c : Nat} {a : Char} (h : gridGet grid r c = some a) : r < 5 ∧ c < 5 := by
  unfold gridGet at h
  cases hr : grid[r]? with
  | none =>
    rw [hr] at h
    simp at h
  | some row =>
    rw [hr] at h
    simp only [Option.some_bind] at h
    have hrlt : r < grid.length := (List.getElem?_eq_some_iff.mp hr).1
    have hrowmem : row ∈ grid := List.getElem?_mem hr
    have hclt : c < row.length := (List.getElem?_eq_some_iff.mp h).1
    rw [hwf.2.1 row hrowmem] at hclt
    exact ⟨hwf.1 ▸ hrlt, hclt⟩

/-- Grid lookup as an index into the flattened grid. -/
lemma gridGet_eq_flatten {grid : List (List Char)} (hwf : pfWellFormed grid)
    {r c : Nat} (hc : c < 5) :
    grid.flatten[5 * r + c]? = gridGet grid r c :=
  flatten_getElem? 5 grid r c (fun row h => hwf.2.1 row h) hc

/-- In a grid of pairwise distinct letters, a letter sits at one
position only. -/
lemma gridGet_inj {grid : List (List Char)} (hwf : pfWellFormed grid)
    {r c r2 c2 : Nat} {a : Char}
    (h1 : gridGet grid r c = some a) (h2 : gridGet grid r2 c2 = some a) :
    r = r2 ∧ c = c2 := by
  obtain ⟨hr, hc⟩ := gridGet_bounds hwf h1
  obtain ⟨hr2, hc2⟩ := gridGet_bounds hwf h2
  have e1 := gridGet_eq_flatten hwf (r := r) hc
  have e2 := gridGet_eq_flatten hwf (r := r2) hc2
  have heq : grid.flatten[5 * r + c]? = grid.flatten[5 * r2 + c2]? := by
    rw [e1, e2, h1, h2]
  have hlt : 5 * r + c < grid.flatten.length :=
    (List.getElem?_eq_some_iff.mp (e1.trans h1)).1
  have := List.getElem?_inj hlt hwf.2.2 heq
  omega

/-- The scan order of `find_coordinates` covers exactly the 25 grid
positions. -/
lemma mem_pfCoords (p : Nat × Nat) : p ∈ pfCoords ↔ p.1 < 5 ∧ p.2 < 5 := by
  obtain ⟨r, c⟩ := p
  unfold pfCoords
  simp only [List.mem_flatMap, List.mem_map, List.mem_range, Prod.mk.injEq]
  constructor
  · rintro ⟨a, ha, b, hb, h1, h2⟩
    subst h1
    subst h2
    exact ⟨ha, hb⟩
  · rintro ⟨h1, h2⟩
    exact ⟨r, h1, c, h2, rfl, rfl⟩

/-- In a well-formed grid, `find_coordinates` recovers the position of
any letter present in the grid. -/
lemma find_coordinates_eq {grid : List (List Char)} (hwf : pfWellFormed grid)
    {a : Char} {r c : Nat} (ha : gridGet grid r c = some a) :
    find_coordinates grid a = Except.ok (r, c) := by
  unfold find_coordinates
  have hfind : pfCoords.find? (fun p => gridGet grid p.1 p.2 == some a) = some (r, c) := by
    apply list_find_unique
    · rw [mem_pfCoords]
      exact gridGet_bounds hwf ha
    · simp [ha]
    · intro y hy hpy
      have hy2 : gridGet grid y.1 y.2 = some a := by simpa using hpy
      obtain ⟨h1, h2⟩ := gridGet_inj hwf hy2 ha
      exact Prod.ext h1 h2
  rw [hfind]

/-- In-range lookups in a well-formed grid succeed, returning
`gridChar`. -/
lemma gridGet_some {grid : List (List Char)} (hwf : pfWellFormed grid)
    {r c : Nat} (hr : r < 5) (hc : c < 5) :
    gridGet grid r c = some (gridChar grid r c) := by
  unfold gridChar gridGet
  cases hrow : grid[r]? with
  | none =>
    exfalso
    rw [List.getElem?_eq_none_iff, hwf.1] at hrow
    omega
  | some row =>
    have hlen : row.length = 5 := hwf.2.1 row (List.getElem?_mem hrow)
    have hcrow : c < row.length := by omega
    simp only [Option.some_bind]
    rw [List.getElem?_eq_getElem hcrow]
    simp

/-- Core evaluation of `encrypt_pair` on a digraph whose letters sit at
known positions of a well-formed grid. -/
lemma encrypt_pair_eval {grid : List (List Char)} {a b : Char} {r1 c1 r2 c2 : Nat}
    (hwf : pfWellFormed grid) (ha : gridGet grid r1 c1 = some a)
    (hb : gridGet grid r2 c2 = some b) (t : List Char) :
    encrypt_pair grid (String.mk (a :: b :: t)) =
      (if r1 = r2 then
        Except.ok (String.mk
          [gridChar grid r1 ((c1 + 1) % 5), gridChar grid r2 ((c2 + 1) % 5)])
      else if c1 = c2 then
        Except.ok (String.mk
          [gridChar grid ((r1 + 1) % 5) c1, gridChar grid ((r2 + 1) % 5) c2])
      else
        Except.ok (String.mk [gridChar grid r1 c2, gridChar grid r2 c1])) := by
  obtain ⟨hr1, hc1⟩ := gridGet_bounds hwf ha
  obtain ⟨hr2, hc2⟩ := gridGet_bounds hwf hb
  have hfa := find_coordinates_eq hwf ha
  have hfb := find_coordinates_eq hwf hb
  by_cases h12 : r1 = r2
  · subst h12
    have g1 := gridGet_some hwf hr1 (show (c1 + 1) % 5 < 5 by omega)
    have g2 := gridGet_some hwf hr2 (show (c2 + 1) % 5 < 5 by omega)
    simp [encrypt_pair, hfa, hfb, g1, g2]
  · by_cases hc12 : c1 = c2
    · subst hc12
      have g1 := gridGet_some hwf (show (r1 + 1) % 5 < 5 by omega) hc1
      have g2 := gridGet_some hwf (show (r2 + 1) % 5 < 5 by omega) hc2
      simp [encrypt_pair, hfa, hfb, h12, g1, g2]
    · have g1 := gridGet_some hwf hr1 hc2
      have g2 := gridGet_some hwf hr2 hc1
      simp [encrypt_pair, hfa, hfb, h12, hc12, g1, g2]

/-- The grid built from the keyword `MONARCHY` (as in the repository's
tests), used as a concrete example grid. -/
def monGrid : List (List Char) :=
  [['M', 'O', 'N', 'A', 'R'], ['C', 'H', 'Y', 'B', 'D'],
   ['E', 'F', 'G', 'I', 'K'], ['L', 'P', 'Q', 'S', 'T'],
   ['U', 'V', 'W', 'X', 'Z']]

/-- C6: on a well-formed grid, `encrypt_pair` maps the letters at
`(r1,c1)` and `(r2,c2)` to the letters at the positions given by the
same-row (columns advance by one modulo 5), same-column (rows advance by
one modulo 5) and rectangle (columns swapped, rows unchanged) rules, in
input order. -/
theorem encrypt_pair_rules (grid : List (List Char)) (a b : Char) (r1 c1 r2 c2 : Nat)
    (hwf : pfWellFormed grid) (ha : gridGet grid r1 c1 = some a)
    (hb : gridGet grid r2 c2 = some b) :
    encrypt_pair grid (String.mk [a, b]) =
      (if r1 = r2 then
        Except.ok (String.mk
          [gridChar grid r1 ((c1 + 1) % 5), gridChar grid r2 ((c2 + 1) % 5)])
      else if c1 = c2 then
        Except.ok (String.mk
          [gridChar grid ((r1 + 1) % 5) c1, gridChar grid ((r2 + 1) % 5) c2])
      else
        Except.ok (String.mk [gridChar grid r1 c2, gridChar grid r2 c1])) :=
  encrypt_pair_eval hwf ha hb []

/-- Witness for C6: on the `MONARCHY` grid the rectangle digraph `HE`
encrypts to `CF`. -/
theorem encrypt_pair_rules_witness :
    encrypt_pair monGrid (String.mk ['H', 'E']) = Except.ok (String.mk ['C', 'F']) := by
  have h := encrypt_pair_rules monGrid 'H' 'E' 1 1 2 0
    ⟨rfl, by decide, by decide⟩ rfl rfl
  exact h.trans (by rfl)

/-- C7: on a well-formed grid, encrypting a digraph whose letters share
neither a row nor a column twice returns the original digraph. -/
theorem encrypt_pair_rect_involutive (grid : List (List Char)) (a b : Char)
    (r1 c1 r2 c2 : Nat) (hwf : pfWellFormed grid)
    (ha : gridGet grid r1 c1 = some a) (hb : gridGet grid r2 c2 = some b)
    (hr : r1 ≠ r2) (hc : c1 ≠ c2) :
    (encrypt_pair grid (String.mk [a, b])).bind (fun d => encrypt_pair grid d)
      = Except.ok (String.mk [a, b]) := by
  obtain ⟨hr1, hc1l⟩ := gridGet_bounds hwf ha
  obtain ⟨hr2, hc2l⟩ := gridGet_bounds hwf hb
  have ha2 := gridGet_some hwf hr1 hc2l
  have hb2 := gridGet_some hwf hr2 hc1l
  have h1 := encrypt_pair_eval hwf ha hb ([] : List Char)
  rw [if_neg hr, if_neg hc] at h1
  rw [h1]
  show encrypt_pair grid (String.mk [gridChar grid r1 c2, gridChar grid r2 c1])
      = Except.ok (String.mk [a, b])
  have h2 := encrypt_pair_eval hwf ha2 hb2 ([] : List Char)
  rw [if_neg hr, if_neg (fun hh => hc hh.symm)] at h2
  rw [h2]
  have e1 : gridChar grid r1 c1 = a := by
    unfold gridChar
    rw [ha]
    rfl
  have e2 : gridChar grid r2 c2 = b := by
    unfold gridChar
    rw [hb]
    rfl
  rw [e1, e2]

/-- Witness for C7: on the `MONARCHY` grid, encrypting the rectangle
digraph `HE` twice returns `HE`. -/
theorem encrypt_pair_rect_involutive_witness :
    (encrypt_pair monGrid (String.mk ['H', 'E'])).bind
        (fun d => encrypt_pair monGrid d)
      = Except.ok (String.mk ['H', 'E']) :=
  encrypt_pair_rect_involutive monGrid 'H' 'E' 1 1 2 0
    ⟨rfl, by decide, by decide⟩ rfl rfl (by decide) (by decide)

/-- C10: on a well-formed grid, encrypting a digraph of two distinct
letters present in the grid yields a successful digraph of two distinct
letters. -/
theorem encrypt_pair_distinct (grid : List (List Char)) (a b : Char)
    (r1 c1 r2 c2 : Nat) (hwf : pfWellFormed grid)
    (ha : gridGet grid r1 c1 = some a) (hb : gridGet grid r2 c2 = some b)
    (hab : a ≠ b) :
    pfIsDistinctOkPair (encrypt_pair grid (String.mk [a, b])) = true := by
  obtain ⟨hr1, hc1l⟩ := gridGet_bounds hwf ha
  obtain ⟨hr2, hc2l⟩ := gridGet_bounds hwf hb
  have h1 := encrypt_pair_eval hwf ha hb ([] : List Char)
  have hposne : ¬(r1 = r2 ∧ c1 = c2) := by
    rintro ⟨h3, h4⟩
    subst h3
    subst h4
    rw [ha] at hb
    exact hab (Option.some.inj hb)
  by_cases h12 : r1 = r2
  · rw [if_pos h12] at h1
    have hcne : c1 ≠ c2 := fun hh => hposne ⟨h12, hh⟩
    have hm : (c1 + 1) % 5 ≠ (c2 + 1) % 5 := by omega
    have g1 := gridGet_some hwf hr1 (show (c1 + 1) % 5 < 5 by omega)
    have g2 := gridGet_some hwf hr2 (show (c2 + 1) % 5 < 5 by omega)
    have hne : gridChar grid r1 ((c1 + 1) % 5) ≠ gridChar grid r2 ((c2 + 1) % 5) := by
      intro he
      rw [he] at g1
      exact hm (gridGet_inj hwf g1 g2).2
    rw [h1]
    simp [pfIsDistinctOkPair, hne]
  · by_cases hc12 : c1 = c2
    · rw [if_neg h12, if_pos hc12] at h1
      have hm : (r1 + 1) % 5 ≠ (r2 + 1) % 5 := by omega
      have g1 := gridGet_some hwf (show (r1 + 1) % 5 < 5 by omega) hc1l
      have g2 := gridGet_some hwf (show (r2 + 1) % 5 < 5 by omega) hc2l
      have hne : gridChar grid ((r1 + 1) % 5) c1 ≠ gridChar grid ((r2 + 1) % 5) c2 := by
        intro he
        rw [he] at g1
        exact hm (gridGet_inj hwf g1 g2).1
      rw [h1]
      simp [pfIsDistinctOkPair, hne]
    · rw [if_neg h12, if_neg hc12] at h1
      have g1 := gridGet_some hwf hr1 hc2l
      have g2 := gridGet_some hwf hr2 hc1l
      have hne : gridChar grid r1 c2 ≠ gridChar grid r2 c1 := by
        intro he
        rw [he] at g1
        exact h12 (gridGet_inj hwf g1 g2).1
      rw [h1]
      simp [pfIsDistinctOkPair, hne]

/-- Witness for C10: on the `MONARCHY` grid the digraph `HE` encrypts to
a digraph of two distinct letters. -/
theorem encrypt_pair_distinct_witness :
    pfIsDistinctOkPair (encrypt_pair monGrid (String.mk ['H', 'E'])) = true :=
  encrypt_pair_distinct monGrid 'H' 'E' 1 1 2 0
    ⟨rfl, by decide, by decide⟩ rfl rfl (by decide)

/-! ### Error handling (C9) and the end-to-end scenario (C1) -/

/-- C9: `create_grid` fails with the invalid-key error exactly when the
keyword has no alphabetic characters after cleaning (in particular on
`""` and `"123"`), and `playfair_encrypt` propagates that error
unchanged for every message. -/
theorem create_grid_invalid_key (keyword message : String) :
    (create_grid keyword = Except.error invalidKeyMsg ↔ pfClean keyword.data = []) ∧
    create_grid "" = Except.error invalidKeyMsg ∧
    create_grid "123" = Except.error invalidKeyMsg ∧
    (∀ e, create_grid keyword = Except.error e →
      playfair_encrypt keyword message = Except.error e) := by
  refine ⟨⟨?_, ?_⟩, rfl, rfl, ?_⟩
  · intro h
    unfold create_grid at h
    by_cases hg : (keyword.data.isEmpty || !(keyword.data.any pyIsAlpha)) = true
    · have hnoalpha : ∀ c ∈ keyword.data, pyIsAlpha c = false := by
        intro c hc
        rcases Bool.or_eq_true_iff.mp hg with h1 | h1
        · rw [List.isEmpty_iff] at h1
          rw [h1] at hc
          exact absurd hc (List.not_mem_nil c)
        · rw [Bool.not_eq_eq_eq_not, Bool.not_true, List.any_eq_false] at h1
          have := h1 c hc
          simpa using this
      unfold pfClean
      have hf : (keyword.data.map pyUpper).filter pyIsAlpha = [] := by
        rw [List.filter_eq_nil_iff]
        intro a ha2
        obtain ⟨c0, hc0, hup⟩ := List.mem_map.mp ha2
        rw [← hup, pyIsAlpha_pyUpper]
        simp [hnoalpha c0 hc0]
      rw [hf]
      rfl
    · rw [if_neg hg] at h
      exact absurd h (by simp)
  · intro h
    have hnoalpha : ∀ c ∈ keyword.data, pyIsAlpha c = false := by
      intro c hc
      by_contra hcc
      have hct : pyIsAlpha c = true := by
        cases hb : pyIsAlpha c
        · exact absurd hb hcc
        · rfl
      have hm : pyUpper c ∈ (keyword.data.map pyUpper).filter pyIsAlpha := by
        rw [List.mem_filter]
        refine ⟨List.mem_map_of_mem _ hc, ?_⟩
        rw [pyIsAlpha_pyUpper]
        exact hct
      have hmem : (if pyUpper c = 'J' then 'I' else pyUpper c) ∈ pfClean keyword.data := by
        unfold pfClean
        exact List.mem_map_of_mem _ hm
      rw [h] at hmem
      exact absurd hmem (List.not_mem_nil _)
    unfold create_grid
    have hg : (keyword.data.isEmpty || !(keyword.data.any pyIsAlpha)) = true := by
      rw [Bool.or_eq_true_iff]
      right
      rw [Bool.not_eq_eq_eq_not, Bool.not_true, List.any_eq_false]
      intro x hx
      simp [hnoalpha x hx]
    rw [if_pos hg]
  · intro e he
    unfold playfair_encrypt
    rw [he]

/-- Witness for C9: the keyword `123` makes `playfair_encrypt` fail with
the invalid-key error even on an empty message, and `""` fails too. -/
theorem create_grid_invalid_key_witness :
    playfair_encrypt "123" "" = Except.error invalidKeyMsg ∧
    create_grid "" = Except.error invalidKeyMsg := by
  have h := create_grid_invalid_key "123" ""
  exact ⟨h.2.2.2 invalidKeyMsg h.2.2.1, h.2.1⟩

/-- C1 counterexample: the encryption of `WE ARE NOT SAFE` under the
keyword `PLAYFAIR` is not the ciphertext `UBLRUVQPQYPM` stated by the
specification. -/
theorem playfair_we_are_not_safe_ne_spec :
    playfair_encrypt "PLAYFAIR" "WE ARE NOT SAFE" ≠ Except.ok "UBLRUVQPQYPM" := by
  intro h
  rw [show playfair_encrypt "PLAYFAIR" "WE ARE NOT SAFE"
      = Except.ok "UHLBNUQNQYPM" from rfl] at h
  exact absurd (Except.ok.inj h) (by decide)

/-- C1 amended: the encryption of `WE ARE NOT SAFE` under the keyword
`PLAYFAIR` returns exactly the ciphertext `UHLBNUQNQYPM` (digraphs
`WE AR EN OT SA FE` encrypt to `UH LB NU QN QY PM` on the `PLAYFAIR`
grid). -/
theorem playfair_we_are_not_safe_eval :
    playfair_encrypt "PLAYFAIR" "WE ARE NOT SAFE" = Except.ok "UHLBNUQNQYPM" := rfl
